import Mathlib

/-!
Verification of the mail-delivery robot simulation (Eloquent JavaScript ch. 7 variant).

The JavaScript source is shallowly embedded:
* a JS object used as a map (`Object.create(null)` in `buildGraph`) becomes an
  association list `Graph := List (String × List String)` preserving key insertion
  order; `graph[k]` becomes `lookupG` (`none` models `undefined`);
* fallible operations (JS `TypeError` from reading a property of `undefined`)
  return `Option`/a dedicated result constructor;
* the `findRoute` BFS loop (`for (let i = 0; i < work.length; i++)`) is embedded
  with an explicit fuel argument; the chosen fuel `g.length + 2` is proved
  sufficient, so fuel exhaustion (`FRes.fuelOut`) models non-termination and is
  shown unreachable;
* `Math.random()`-driven choices become explicit choice arguments (a `Nat` index,
  or a stream `Nat → Nat` for the resampling loop of `VillageState.random`).
-/

set_option maxRecDepth 10000

/-- A JS object used as a dictionary: association list from key to value,
in key-insertion order (mirrors JS object key ordering for string keys). -/
abbrev Graph := List (String × List String)

/-- `graph[k]`: `none` models JS `undefined` (key absent). -/
def lookupG : Graph → String → Option (List String)
  | [], _ => none
  | (k, vs) :: rest, x => if k = x then some vs else lookupG rest x

/-- `graph[k]` where absence is read as the empty adjacency list. -/
def lookupD (g : Graph) (x : String) : List String := (lookupG g x).getD []

/-- `Object.keys(graph)`: the keys in insertion order. -/
def keysG (g : Graph) : List String := g.map (·.1)

/-- `addEdge(from, to)` from `buildGraph`: if `graph[from] == null` then
`graph[from] = [to]` (new key appended in insertion order), else
`graph[from].push(to)`. -/
def addEdge : Graph → String → String → Graph
  | [], f, t => [(f, [t])]
  | (k, vs) :: rest, f, t =>
      if k = f then (k, vs ++ [t]) :: rest else (k, vs) :: addEdge rest f t

/-- Splitting a character list at every occurrence of `c`
(accumulator holds the current fragment, reversed). -/
def splitAux (c : Char) : List Char → List Char → List (List Char)
  | [], acc => [acc.reverse]
  | x :: xs, acc =>
      if x = c then acc.reverse :: splitAux c xs [] else splitAux c xs (x :: acc)

/-- JS `r.split("-")` for the one-character separator actually used by the source. -/
def splitDash (s : String) : List String := (splitAux '-' s.data []).map String.mk

/-- The destructuring `let [from, to] of edges.map(r => r.split("-"))`: the first
two fragments. A fragment missing in JS would be `undefined`; the placeholder
`""` is returned instead, and never arises for well-formed edge strings
(exactly one dash). -/
def parseEdge (r : String) : String × String :=
  match splitDash r with
  | f :: t :: _ => (f, t)
  | f :: [] => (f, "")
  | [] => ("", "")

/-- `buildGraph(edges)`: starting from the empty object, for each edge string
add both directed entries. -/
def buildGraph (edges : List String) : Graph :=
  (edges.map parseEdge).foldl (fun g ft => addEdge (addEdge g ft.1 ft.2) ft.2 ft.1) []

/-- The `roads` constant of the source. -/
def roads : List String :=
  ["Alice's House-Bob's House",
   "Alice's House-Cabin",
   "Alice's House-Post Office",
   "Bob's House-Town Hall",
   "Daria's House-Ernie's House",
   "Daria's House-Town Hall",
   "Ernie's House-Grete's House",
   "Grete's House-Farm",
   "Grete's House-Shop",
   "Marketplace-Farm",
   "Marketplace-Post Office",
   "Marketplace-Shop",
   "Shop-Town Hall"]

/-- `const roadGraph = buildGraph(roads)`. -/
def roadGraph : Graph := buildGraph roads

/-- A parcel `{place, address}`. -/
structure Parcel where
  place : String
  address : String
deriving DecidableEq, Repr

/-- `VillageState`: `{place, parcels}`. -/
structure VillageState where
  place : String
  parcels : List Parcel
deriving DecidableEq, Repr

/-- The parcel list computed in the valid-move branch of `VillageState.move`:
`this.parcels.map(p => p.place != this.place ? p : {place: destination,
address: p.address}).filter(p => p.place != p.address)`. -/
def movedParcels (s : VillageState) (destination : String) : List Parcel :=
  (s.parcels.map fun p =>
      if p.place ≠ s.place then p else { place := destination, address := p.address }).filter
    fun p => p.place ≠ p.address

/-- `VillageState.move(destination)`. `none` models the JS `TypeError` raised by
`roadGraph[this.place].includes(...)` when `this.place` is not a vertex;
otherwise the source returns `this` unchanged for a non-neighbor destination and
a new state for a neighbor destination. -/
def VillageState.move (s : VillageState) (destination : String) : Option VillageState :=
  match lookupG roadGraph s.place with
  | none => none
  | some nbrs =>
      if destination ∈ nbrs then some ⟨destination, movedParcels s destination⟩
      else some s

/-- `randomPick(array)` with the random draw `Math.floor(Math.random() *
array.length)` made explicit as the index `choice`; a JS draw always satisfies
`choice < array.length` when the array is non-empty. `none` models the
out-of-range access yielding `undefined`. -/
def randomPick (array : List String) (choice : Nat) : Option String := array.get? choice

/-- `randomRobot(state)`: `{direction: randomPick(roadGraph[state.place])}`,
returning just the direction. `none` models the JS `TypeError` when
`state.place` is not a vertex (or an out-of-range draw). -/
def randomRobot (s : VillageState) (choice : Nat) : Option String :=
  (lookupG roadGraph s.place).bind fun nbrs => randomPick nbrs choice

/-- The `do { place = randomPick(Object.keys(roadGraph)); } while (place ==
address)` loop of `VillageState.random`, with the random index stream explicit
and a fuel bound on the number of iterations: `none` means the loop has not
terminated within `fuel` iterations (or an out-of-range draw occurred). -/
def sampleDistinct (keys : List String) (address : String) :
    Nat → (Nat → Nat) → Option String
  | 0, _ => none
  | fuel + 1, choices =>
      match keys.get? (choices 0) with
      | none => none
      | some place =>
          if place = address then sampleDistinct keys address fuel (fun n => choices (n + 1))
          else some place

/-- `const mailRoute = [...]` from the source. -/
def mailRoute : List String :=
  ["Alice's House", "Cabin", "Alice's House", "Bob's House",
   "Town Hall", "Daria's House", "Ernie's House", "Grete's House",
   "Shop", "Grete's House", "Farm", "Marketplace", "Post Office"]

/-- `routeRobot(state, memory)`: reset the memory to `mailRoute` when empty,
then return `{direction: memory[0], memory: memory.slice(1)}`. The direction is
`Option` because `memory[0]` is `undefined` on an empty array. -/
def routeRobot (_state : VillageState) (memory : List String) :
    Option String × List String :=
  let memory := if memory.length = 0 then mailRoute else memory
  (memory.head?, memory.drop 1)

/-- A `findRoute` work-list item `{at, route}` (`at` renamed `atV`: `at` is a
reserved word in Lean). -/
structure WorkItem where
  atV : String
  route : List String
deriving DecidableEq, Repr

/-- Outcome of `findRoute`: an early `return route.concat(place)`
(`found`), falling off the loop returning `undefined` (`noRoute`), a JS
`TypeError` from `graph[at]` being `undefined` (`stuck`), or exhaustion of the
modelling fuel (`fuelOut`, proved unreachable for the fuel used). -/
inductive FRes where
  | found : List String → FRes
  | noRoute : FRes
  | stuck : FRes
  | fuelOut : FRes
deriving DecidableEq, Repr

/-- The inner `for (let place of graph[at])` loop of `findRoute`: either an
early return of a completed route (`Sum.inl`) or the updated work list
(`Sum.inr`). The `work.some(w => w.at == place)` check runs against the work
list as already extended during this same pass. -/
def scanNbrs (tgt : String) (route : List String) :
    List WorkItem → List String → Sum (List String) (List WorkItem)
  | work, [] => Sum.inr work
  | work, place :: rest =>
      if place = tgt then Sum.inl (route ++ [place])
      else if work.any (fun w => w.atV = place) then scanNbrs tgt route work rest
      else scanNbrs tgt route (work ++ [⟨place, route ++ [place]⟩]) rest

/-- The outer `for (let i = 0; i < work.length; i++)` loop of `findRoute`,
with one unit of fuel per iteration. -/
def frAux (g : Graph) (tgt : String) : Nat → List WorkItem → Nat → FRes
  | 0, _, _ => FRes.fuelOut
  | fuel + 1, work, i =>
      match work.get? i with
      | none => FRes.noRoute
      | some w =>
          match lookupG g w.atV with
          | none => FRes.stuck
          | some nbrs =>
              match scanNbrs tgt w.route work nbrs with
              | Sum.inl r => FRes.found r
              | Sum.inr work2 => frAux g tgt fuel work2 (i + 1)

/-- `findRoute(graph, from, to)`. The fuel `g.length + 2` strictly exceeds the
largest possible number of loop iterations (the work list holds pairwise
distinct vertices), as proved below. -/
def findRoute (g : Graph) (f t : String) : FRes :=
  frAux g t (g.length + 2) [⟨f, []⟩] 0

/-- `goalOrientedRobot({place, parcels}, route)`, returning
`some (direction, memory)`; `none` models the JS `TypeError` from
`parcels[0].place` on an empty parcel list, or from `route.slice(1)` when
`findRoute` returned `undefined`. -/
def goalOrientedRobot (s : VillageState) (route : List String) :
    Option (Option String × List String) :=
  let planned : Option (List String) :=
    if route.length = 0 then
      match s.parcels with
      | [] => none
      | parcel :: _ =>
          if parcel.place ≠ s.place then
            match findRoute roadGraph s.place parcel.place with
            | FRes.found r => some r
            | _ => none
          else
            match findRoute roadGraph s.place parcel.address with
            | FRes.found r => some r
            | _ => none
    else some route
  planned.map fun r => (r.head?, r.drop 1)

-- Spec-side notions used to state shortest-path claims, independent of `findRoute`.

/-- One-hop adjacency as recorded in the graph object. -/
def adjacentG (g : Graph) (u v : String) : Prop := v ∈ lookupD g u

instance (g : Graph) (u v : String) : Decidable (adjacentG g u v) := by
  unfold adjacentG; infer_instance

/-- `Walk g u r`: successive vertices of `r` are each adjacent to their
predecessor, starting from `u`. -/
def Walk (g : Graph) : String → List String → Prop
  | _, [] => True
  | u, v :: rest => adjacentG g u v ∧ Walk g v rest

instance (g : Graph) : (u : String) → (r : List String) → Decidable (Walk g u r)
  | _, [] => isTrue trivial
  | u, v :: rest =>
      match inferInstanceAs (Decidable (adjacentG g u v)), instDecidableWalk g v rest with
      | isTrue h1, isTrue h2 => isTrue ⟨h1, h2⟩
      | isFalse h1, _ => isFalse fun h => h1 h.1
      | _, isFalse h2 => isFalse fun h => h2 h.2

/-- The endpoint of a walk: its last vertex, or the start for the empty walk. -/
def walkEnd (u : String) (r : List String) : String := r.getLastD u

/-- `to` is reachable from `u`: some walk from `u` ends at `to`. -/
def ReachableG (g : Graph) (u tgt : String) : Prop :=
  ∃ r, Walk g u r ∧ walkEnd u r = tgt

/-- `n` is the unweighted shortest-path hop count from `u` to `to`:
some walk of length `n` reaches `to`, and no shorter walk does. -/
def IsShortestHops (g : Graph) (u tgt : String) (n : Nat) : Prop :=
  (∃ r, Walk g u r ∧ walkEnd u r = tgt ∧ r.length = n) ∧
    ∀ r, Walk g u r → walkEnd u r = tgt → n ≤ r.length

/-- One breadth-first expansion of a vertex set. -/
def ballStep (g : Graph) (b : List String) : List String :=
  b ++ (b.flatMap (lookupD g)).filter fun v => ¬ v ∈ b

/-- The vertices reachable from `u` by walks of length at most `n`
(independent BFS distance computation used to certify shortest-path claims). -/
def ball (g : Graph) (u : String) : Nat → List String
  | 0 => [u]
  | n + 1 => ballStep g (ball g u n)

example : lookupD roadGraph "Alice's House" =
    ["Bob's House", "Cabin", "Post Office"] := by decide

example : keysG roadGraph =
    ["Alice's House", "Bob's House", "Cabin", "Post Office", "Town Hall",
     "Daria's House", "Ernie's House", "Grete's House", "Farm",
     "Shop", "Marketplace"] := by decide

example : findRoute roadGraph "Alice's House" "Cabin" = FRes.found ["Cabin"] := by
  decide

example : findRoute roadGraph "Alice's House" "Alice's House" =
    FRes.found ["Bob's House", "Alice's House"] := by decide

example : findRoute roadGraph "Cabin" "Farm" =
    FRes.found ["Alice's House", "Post Office", "Marketplace", "Farm"] := by decide

example : findRoute (buildGraph ["A-B", "C-D"]) "A" "C" = FRes.noRoute := by decide

example : ball roadGraph "Cabin" 2 =
    ["Cabin", "Alice's House", "Bob's House", "Post Office"] := by decide

/-- One round of the parcel-generation of `VillageState.random`:
`let address = randomPick(Object.keys(roadGraph))`, then the
`do { place = randomPick(...) } while (place == address)` resampling of `place`.
`none` means the resampling loop has not terminated within `fuel` iterations. -/
def randomParcelPlace (keys : List String) (fuel : Nat) (choices : Nat → Nat) :
    Option String :=
  match keys.get? (choices 0) with
  | none => none
  | some address => sampleDistinct keys address fuel (fun n => choices (n + 1))

-- Helper lemmas.

theorem lookupG_of_mem_keys {g : Graph} {x : String} (h : x ∈ keysG g) :
    ∃ nbrs, lookupG g x = some nbrs := by
  induction g with
  | nil => simp [keysG] at h
  | cons kv rest ih =>
      obtain ⟨k, vs⟩ := kv
      by_cases hk : k = x
      · exact ⟨vs, by simp [lookupG, hk]⟩
      · have hx : x ∈ keysG rest := by
          simp [keysG] at h
          rcases h with h | h
          · exact absurd h.symm hk
          · simpa [keysG] using h
        obtain ⟨nbrs, hn⟩ := ih hx
        exact ⟨nbrs, by simp [lookupG, hk, hn]⟩

theorem lookupD_eq_of_lookupG {g : Graph} {x : String} {nbrs : List String}
    (h : lookupG g x = some nbrs) : lookupD g x = nbrs := by
  simp [lookupD, h]

/-- C1: for a destination that is an immediate neighbor of `s.place`, `move`
returns the state at `destination` whose parcels are the old parcels with every
parcel at the old place carried to `destination` and every delivered parcel
(place = address) removed; no delivered parcel remains and the parcel count
does not grow. -/
theorem move_valid_destination (s : VillageState) (d : String)
    (h : d ∈ lookupD roadGraph s.place) :
    s.move d = some ⟨d, movedParcels s d⟩ ∧
      (∀ p ∈ movedParcels s d, p.place ≠ p.address) ∧
      (movedParcels s d).length ≤ s.parcels.length := by
  have hsome : ∃ nbrs, lookupG roadGraph s.place = some nbrs := by
    cases hl : lookupG roadGraph s.place with
    | none => simp [lookupD, hl] at h
    | some nbrs => exact ⟨nbrs, rfl⟩
  obtain ⟨nbrs, hl⟩ := hsome
  have hd : d ∈ nbrs := by simpa [lookupD, hl] using h
  refine ⟨by simp [VillageState.move, hl, hd], ?_, ?_⟩
  · intro p hp
    simp only [movedParcels, List.mem_filter] at hp
    simpa using hp.2
  · calc (movedParcels s d).length
        ≤ ((s.parcels.map fun p =>
            if p.place ≠ s.place then p
            else { place := d, address := p.address }).length) :=
          List.length_filter_le _ _
      _ = s.parcels.length := List.length_map _ _

theorem move_valid_destination_witness :
    "Cabin" ∈ lookupD roadGraph "Alice's House" ∧
      (VillageState.move ⟨"Alice's House", [⟨"Alice's House", "Cabin"⟩]⟩ "Cabin" =
          some ⟨"Cabin",
            movedParcels ⟨"Alice's House", [⟨"Alice's House", "Cabin"⟩]⟩ "Cabin"⟩ ∧
        (∀ p ∈ movedParcels ⟨"Alice's House", [⟨"Alice's House", "Cabin"⟩]⟩ "Cabin",
            p.place ≠ p.address) ∧
        (movedParcels ⟨"Alice's House", [⟨"Alice's House", "Cabin"⟩]⟩ "Cabin").length ≤
          [(⟨"Alice's House", "Cabin"⟩ : Parcel)].length) :=
  ⟨by decide, move_valid_destination ⟨"Alice's House", [⟨"Alice's House", "Cabin"⟩]⟩
    "Cabin" (by decide)⟩

/-- C2: for a destination that is not an immediate neighbor of `s.place`
(a vertex of the road graph), `move` is a no-op returning the very same state,
and no error is raised. -/
theorem move_invalid_destination_noop (s : VillageState) (d : String)
    (hv : s.place ∈ keysG roadGraph) (hd : d ∉ lookupD roadGraph s.place) :
    s.move d = some s := by
  obtain ⟨nbrs, hl⟩ := lookupG_of_mem_keys hv
  have hnd : d ∉ nbrs := by simpa [lookupD, hl] using hd
  simp [VillageState.move, hl, hnd]

theorem move_invalid_destination_noop_witness :
    "Alice's House" ∈ keysG roadGraph ∧ "Farm" ∉ lookupD roadGraph "Alice's House" ∧
      VillageState.move ⟨"Alice's House", [⟨"Cabin", "Farm"⟩]⟩ "Farm" =
        some ⟨"Alice's House", [⟨"Cabin", "Farm"⟩]⟩ :=
  ⟨by decide, by decide,
    move_invalid_destination_noop ⟨"Alice's House", [⟨"Cabin", "Farm"⟩]⟩ "Farm"
      (by decide) (by decide)⟩

/-- C8: `routeRobot` resets an empty memory to the full preset `mailRoute`,
then returns the head of the (possibly reset) memory as direction and its tail
as the new memory, independently of the world state. -/
theorem routeRobot_spec (s : VillageState) (m : List String) :
    (m = [] → routeRobot s m = (mailRoute.head?, mailRoute.drop 1)) ∧
      (m ≠ [] → routeRobot s m = (m.head?, m.drop 1)) ∧
      (∀ s2, routeRobot s2 m = routeRobot s m) := by
  refine ⟨?_, ?_, fun s2 => rfl⟩
  · rintro rfl; rfl
  · intro hm
    have : m.length ≠ 0 := by simpa [List.length_eq_zero] using hm
    simp [routeRobot, this]

theorem routeRobot_spec_witness :
    routeRobot ⟨"Post Office", []⟩ ["Cabin", "Farm"] = (some "Cabin", ["Farm"]) :=
  (routeRobot_spec ⟨"Post Office", []⟩ ["Cabin", "Farm"]).2.1 (by decide)

/-- C9 (the code, contrary to the spec, does not fail fast): on a road graph
with a single vertex the `do..while` resampling loop of `VillageState.random`
never terminates — for every iteration budget `fuel` and every stream of valid
random draws the loop is still running (no error is ever raised). -/
theorem random_single_vertex_diverges (k : String) (fuel : Nat)
    (choices : Nat → Nat) (hvalid : ∀ i, choices i < 1) :
    randomParcelPlace [k] fuel choices = none := by
  have hloop : ∀ (n : Nat) (cs : Nat → Nat), (∀ i, cs i < 1) →
      sampleDistinct [k] k n cs = none := by
    intro n
    induction n with
    | zero => intro cs _; rfl
    | succ n ih =>
        intro cs hcs
        have h0 : cs 0 = 0 := Nat.lt_one_iff.mp (hcs 0)
        unfold sampleDistinct
        rw [h0]
        simpa using ih (fun i => cs (i + 1)) (fun i => hcs (i + 1))
  have h0 : choices 0 = 0 := Nat.lt_one_iff.mp (hvalid 0)
  unfold randomParcelPlace
  rw [h0]
  simpa using hloop fuel (fun n => choices (n + 1)) (fun i => hvalid (i + 1))

theorem random_single_vertex_diverges_witness :
    randomParcelPlace ["Post Office"] 1000 (fun _ => 0) = none :=
  random_single_vertex_diverges "Post Office" 1000 (fun _ => 0) (fun _ => Nat.one_pos)

/-- C10: whatever the random draw, the direction chosen by `randomRobot` is an
element of the adjacency list of `s.place`, so the subsequent `move` takes the
valid-move branch (never the invalid-move no-op branch). -/
theorem randomRobot_direction_valid (s : VillageState) (choice : Nat)
    (hv : s.place ∈ keysG roadGraph)
    (hc : choice < (lookupD roadGraph s.place).length) :
    ∃ d, randomRobot s choice = some d ∧ d ∈ lookupD roadGraph s.place ∧
      s.move d = some ⟨d, movedParcels s d⟩ := by
  obtain ⟨nbrs, hl⟩ := lookupG_of_mem_keys hv
  have hD : lookupD roadGraph s.place = nbrs := lookupD_eq_of_lookupG hl
  rw [hD] at hc ⊢
  refine ⟨nbrs.get ⟨choice, hc⟩, ?_, List.get_mem _ _ _, ?_⟩
  · simp [randomRobot, hl, randomPick, List.get?_eq_get hc]
  · have hd : nbrs.get ⟨choice, hc⟩ ∈ nbrs := List.get_mem _ _ _
    simp [VillageState.move, hl, hd]

theorem randomRobot_direction_valid_witness :
    "Alice's House" ∈ keysG roadGraph ∧
      0 < (lookupD roadGraph "Alice's House").length ∧
      ∃ d, randomRobot ⟨"Alice's House", []⟩ 0 = some d ∧
        d ∈ lookupD roadGraph "Alice's House" ∧
        VillageState.move ⟨"Alice's House", []⟩ d =
          some ⟨d, movedParcels ⟨"Alice's House", []⟩ d⟩ :=
  ⟨by decide, by decide,
    randomRobot_direction_valid ⟨"Alice's House", []⟩ 0 (by decide) (by decide)⟩

/-- Effect of one `addEdge` on occurrence counts in adjacency lists: the count
of `b` in `graph[a]` grows by one exactly when `(a, b)` is the added pair. -/
theorem count_lookupD_addEdge (g : Graph) (f t a b : String) :
    List.count b (lookupD (addEdge g f t) a) =
      List.count b (lookupD g a) + (if a = f then (if b = t then 1 else 0) else 0) := by
  induction g with
  | nil =>
      by_cases haf : a = f
      · subst haf
        rcases eq_or_ne b t with rfl | hbt
        · simp [addEdge, lookupD, lookupG, List.count_cons]
        · simp [addEdge, lookupD, lookupG, List.count_cons, hbt, Ne.symm hbt]
      · have : ¬ (f = a) := fun h => haf h.symm
        simp [addEdge, lookupD, lookupG, this, haf]
  | cons kv rest ih =>
      obtain ⟨k, vs⟩ := kv
      by_cases hkf : k = f
      · subst hkf
        by_cases hka : k = a
        · subst hka
          rcases eq_or_ne b t with rfl | hbt
          · simp [addEdge, lookupD, lookupG, List.count_append, List.count_cons]
          · simp [addEdge, lookupD, lookupG, List.count_append, List.count_cons,
              hbt, Ne.symm hbt]
        · have : ¬ (a = k) := fun h => hka h.symm
          simp [addEdge, lookupD, lookupG, hka, this]
      · by_cases hka : k = a
        · subst hka
          simp [addEdge, lookupD, lookupG, hkf]
        · simpa [addEdge, lookupD, lookupG, hkf, hka] using ih

/-- Folding edge pairs into a graph with `addEdge` in both directions preserves
symmetry of occurrence counts. -/
theorem count_symm_foldPairs (pairs : List (String × String)) (g : Graph)
    (hg : ∀ x y, List.count y (lookupD g x) = List.count x (lookupD g y)) :
    ∀ a b,
      List.count b
          (lookupD (pairs.foldl (fun g2 ft => addEdge (addEdge g2 ft.1 ft.2) ft.2 ft.1) g) a) =
        List.count a
          (lookupD (pairs.foldl (fun g2 ft => addEdge (addEdge g2 ft.1 ft.2) ft.2 ft.1) g) b) := by
  induction pairs generalizing g with
  | nil => exact hg
  | cons p rest ih =>
      intro a b
      refine ih (addEdge (addEdge g p.1 p.2) p.2 p.1) ?_ a b
      intro x y
      obtain ⟨p1, p2⟩ := p
      rw [count_lookupD_addEdge, count_lookupD_addEdge,
        count_lookupD_addEdge, count_lookupD_addEdge, hg x y]
      rcases eq_or_ne p1 p2 with rfl | hp
      · by_cases h1 : x = p1 <;> by_cases h4 : y = p1 <;> simp [h1, h4]
      · by_cases h1 : x = p1 <;> by_cases h2 : y = p2 <;>
          by_cases h3 : x = p2 <;> by_cases h4 : y = p1 <;>
            simp [h1, h2, h3, h4, hp, Ne.symm hp]

/-- C5: the graph produced by `buildGraph` from well-formed edge strings is
symmetric with multiplicity: `b` occurs in `graph[a]` as many times as `a`
occurs in `graph[b]` (duplicate edge declarations yield duplicate adjacency
entries in both directions). -/
theorem buildGraph_symmetric_multiplicity (edges : List String)
    (hwf : ∀ r ∈ edges, (splitDash r).length = 2) (a b : String) :
    List.count b (lookupD (buildGraph edges) a) =
      List.count a (lookupD (buildGraph edges) b) := by
  unfold buildGraph
  exact count_symm_foldPairs (edges.map parseEdge) []
    (fun x y => by simp [lookupD, lookupG]) a b

theorem buildGraph_symmetric_multiplicity_witness :
    (∀ r ∈ ["A-B", "A-B", "B-C"], (splitDash r).length = 2) ∧
      List.count "B" (lookupD (buildGraph ["A-B", "A-B", "B-C"]) "A") = 2 ∧
      List.count "B" (lookupD (buildGraph ["A-B", "A-B", "B-C"]) "A") =
        List.count "A" (lookupD (buildGraph ["A-B", "A-B", "B-C"]) "B") :=
  ⟨by decide, by decide,
    buildGraph_symmetric_multiplicity ["A-B", "A-B", "B-C"] (by decide) "A" "B"⟩

/-- C7: with a non-empty parcel list, `goalOrientedRobot` keeps consuming a
non-empty memory (direction = its head, new memory = its tail); with an empty
memory it plans a route with `findRoute` — towards the first parcel's place
when that parcel is not at the agent's place, otherwise towards that parcel's
address — and returns that route's head as direction and its tail as memory. -/
theorem goalOrientedRobot_spec (s : VillageState) (route : List String)
    (hp : s.parcels ≠ []) :
    (route ≠ [] → goalOrientedRobot s route = some (route.head?, route.drop 1)) ∧
      (route = [] →
        ∀ parcel rest r, s.parcels = parcel :: rest →
          findRoute roadGraph s.place
              (if parcel.place ≠ s.place then parcel.place else parcel.address) =
            FRes.found r →
          goalOrientedRobot s route = some (r.head?, r.drop 1)) := by
  constructor
  · intro hr
    have : route.length ≠ 0 := by simpa [List.length_eq_zero] using hr
    simp [goalOrientedRobot, this]
  · rintro rfl parcel rest r hparcels hfr
    by_cases hpl : parcel.place ≠ s.place
    · rw [if_pos hpl] at hfr
      simp [goalOrientedRobot, hparcels, hpl, hfr]
    · rw [if_neg hpl] at hfr
      simp only [not_not] at hpl
      simp [goalOrientedRobot, hparcels, hpl, hfr]

theorem goalOrientedRobot_spec_witness :
    ((⟨"Alice's House", [⟨"Alice's House", "Cabin"⟩]⟩ : VillageState).parcels ≠ []) ∧
      goalOrientedRobot ⟨"Alice's House", [⟨"Alice's House", "Cabin"⟩]⟩ [] =
        some (some "Cabin", []) :=
  ⟨by decide,
    (goalOrientedRobot_spec ⟨"Alice's House", [⟨"Alice's House", "Cabin"⟩]⟩ []
        (by decide)).2 rfl ⟨"Alice's House", "Cabin"⟩ [] ["Cabin"] rfl (by decide)⟩

-- Walks and breadth-first distance balls.

theorem walkEnd_nil (u : String) : walkEnd u [] = u := rfl

theorem walkEnd_concat (u x : String) (r : List String) :
    walkEnd u (r ++ [x]) = x := by
  simp [walkEnd, List.getLastD_concat]

theorem walkEnd_cons (u v : String) (rest : List String) :
    walkEnd u (v :: rest) = walkEnd v rest := by
  cases rest with
  | nil => rfl
  | cons a l => rfl

theorem walk_concat_iff (g : Graph) (u x : String) (r : List String) :
    Walk g u (r ++ [x]) ↔ Walk g u r ∧ adjacentG g (walkEnd u r) x := by
  induction r generalizing u with
  | nil => simp [Walk, walkEnd_nil]
  | cons v rest ih =>
      constructor
      · rintro ⟨hadj, hw⟩
        rcases (ih v).mp hw with ⟨hw2, hadj2⟩
        exact ⟨⟨hadj, hw2⟩, by rw [walkEnd_cons]; exact hadj2⟩
      · rintro ⟨⟨hadj, hw⟩, hadj2⟩
        exact ⟨hadj, (ih v).mpr ⟨hw, by rw [← walkEnd_cons u]; exact hadj2⟩⟩

theorem mem_ballStep_iff (g : Graph) (b : List String) (x : String) :
    x ∈ ballStep g b ↔ x ∈ b ∨ ∃ u ∈ b, x ∈ lookupD g u := by
  constructor
  · intro hx
    rcases List.mem_append.mp hx with h | h
    · exact Or.inl h
    · rcases List.mem_filter.mp h with ⟨h1, _⟩
      rcases List.mem_flatMap.mp h1 with ⟨u, hu, hxu⟩
      exact Or.inr ⟨u, hu, hxu⟩
  · intro hx
    rcases hx with h | ⟨u, hu, hxu⟩
    · exact List.mem_append.mpr (Or.inl h)
    · by_cases hb : x ∈ b
      · exact List.mem_append.mpr (Or.inl hb)
      · refine List.mem_append.mpr (Or.inr (List.mem_filter.mpr ⟨?_, by simpa using hb⟩))
        exact List.mem_flatMap.mpr ⟨u, hu, hxu⟩

theorem ball_succ_sub (g : Graph) (u : String) (n : Nat) :
    ball g u n ⊆ ball g u (n + 1) := by
  intro x hx
  exact List.mem_append.mpr (Or.inl hx)

theorem ball_mono (g : Graph) (u : String) {m n : Nat} (h : m ≤ n) :
    ball g u m ⊆ ball g u n := by
  induction n with
  | zero => cases Nat.le_zero.mp h; exact fun x hx => hx
  | succ n ih =>
      rcases Nat.lt_or_ge m (n + 1) with hlt | hge
      · exact fun x hx => ball_succ_sub g u n (ih (Nat.lt_succ_iff.mp hlt) hx)
      · have : m = n + 1 := Nat.le_antisymm h hge
        subst this
        exact fun x hx => hx

/-- Membership in the `n`-ball is existence of a walk of length at most `n`. -/
theorem mem_ball_iff (g : Graph) (u : String) (n : Nat) (x : String) :
    x ∈ ball g u n ↔ ∃ r, Walk g u r ∧ walkEnd u r = x ∧ r.length ≤ n := by
  induction n generalizing x with
  | zero =>
      constructor
      · intro hx
        have : x = u := by simpa [ball] using hx
        exact ⟨[], trivial, by simp [walkEnd_nil, this], by simp⟩
      · rintro ⟨r, hw, he, hl⟩
        have : r = [] := List.length_eq_zero.mp (Nat.le_zero.mp hl)
        subst this
        simp [ball, ← he, walkEnd_nil]
  | succ n ih =>
      constructor
      · intro hx
        rcases (mem_ballStep_iff g (ball g u n) x).mp hx with h | ⟨v, hv, hxv⟩
        · rcases (ih x).mp h with ⟨r, hw, he, hl⟩
          exact ⟨r, hw, he, Nat.le_succ_of_le hl⟩
        · rcases (ih v).mp hv with ⟨r, hw, he, hl⟩
          refine ⟨r ++ [x], ?_, walkEnd_concat u x r, by simpa using Nat.succ_le_succ hl⟩
          exact (walk_concat_iff g u x r).mpr ⟨hw, by rw [he]; exact hxv⟩
      · rintro ⟨r, hw, he, hl⟩
        rcases List.eq_nil_or_concat r with rfl | ⟨r2, y, hr⟩
        · have hxu : x = u := by simpa [walkEnd_nil] using he.symm
          subst hxu
          exact ball_mono g x (Nat.zero_le _) (by simp [ball])
        · rw [List.concat_eq_append] at hr
          subst hr
          rcases (walk_concat_iff g u y r2).mp hw with ⟨hw2, hadj⟩
          have hy : y = x := by simpa [walkEnd_concat] using he
          subst hy
          have hl2 : r2.length ≤ n := by
            simpa using Nat.le_of_succ_le_succ (by simpa using hl)
          have hvmem : walkEnd u r2 ∈ ball g u n := (ih _).mpr ⟨r2, hw2, rfl, hl2⟩
          exact (mem_ballStep_iff g (ball g u n) y).mpr
            (Or.inr ⟨walkEnd u r2, hvmem, hadj⟩)

/-- Once an expansion step adds nothing, all later balls are equal. -/
theorem ball_stab (g : Graph) (u : String) (n : Nat)
    (h : ballStep g (ball g u n) = ball g u n) :
    ∀ m, n ≤ m → ball g u m = ball g u n := by
  intro m hm
  obtain ⟨k, rfl⟩ := Nat.exists_eq_add_of_le hm
  induction k with
  | zero => rfl
  | succ k ih =>
      have : ball g u (n + (k + 1)) = ballStep g (ball g u (n + k)) := rfl
      rw [this, ih (Nat.le_add_right _ _), h]

/-- A stabilized ball missing `tgt` certifies unreachability. -/
theorem not_reachable_of_ball (g : Graph) (u tgt : String) (n : Nat)
    (hstab : ballStep g (ball g u n) = ball g u n) (hmem : tgt ∉ ball g u n) :
    ¬ ReachableG g u tgt := by
  rintro ⟨r, hw, he⟩
  have : tgt ∈ ball g u r.length := (mem_ball_iff g u r.length tgt).mpr ⟨r, hw, he, le_rfl⟩
  rcases Nat.le_total r.length n with hle | hge
  · exact hmem (ball_mono g u hle this)
  · rw [ball_stab g u n hstab r.length hge] at this
    exact hmem this

-- Lemmas about the `findRoute` loops.

theorem lookupG_mem {g : Graph} {x : String} {nbrs : List String}
    (h : lookupG g x = some nbrs) : (x, nbrs) ∈ g := by
  induction g with
  | nil => simp [lookupG] at h
  | cons kv rest ih =>
      obtain ⟨k, vs⟩ := kv
      by_cases hk : k = x
      · subst hk
        simp [lookupG] at h
        simp [h]
      · simp [lookupG, hk] at h
        exact List.mem_cons_of_mem _ (ih h)

/-- An early return of the inner loop yields `route ++ [tgt]`, and only when
`tgt` occurs among the scanned neighbors. -/
theorem scanNbrs_inl {tgt : String} {route : List String} :
    ∀ {nbrs : List String} {work : List WorkItem} {r : List String},
      scanNbrs tgt route work nbrs = Sum.inl r → r = route ++ [tgt] ∧ tgt ∈ nbrs := by
  intro nbrs
  induction nbrs with
  | nil => intro work r h; simp [scanNbrs] at h
  | cons place rest ih =>
      intro work r h
      by_cases hpt : place = tgt
      · subst hpt
        simp [scanNbrs] at h
        exact ⟨h.symm, List.mem_cons_self _ _⟩
      · rw [scanNbrs, if_neg hpt] at h
        by_cases hmem : work.any (fun w => w.atV = place)
        · rw [if_pos hmem] at h
          rcases ih h with ⟨h1, h2⟩
          exact ⟨h1, List.mem_cons_of_mem _ h2⟩
        · rw [if_neg hmem] at h
          rcases ih h with ⟨h1, h2⟩
          exact ⟨h1, List.mem_cons_of_mem _ h2⟩

/-- When the inner loop finishes without an early return: the target was not
among the scanned neighbors, every scanned neighbor ends up on the work list,
pairwise distinctness of the visited vertices is preserved, and the work list
only grows at its end by items recording a scanned neighbor `place` (absent
from the incoming work list) with route `route ++ [place]`. -/
theorem scanNbrs_inr {tgt : String} {route : List String} :
    ∀ {nbrs : List String} {work work2 : List WorkItem},
      scanNbrs tgt route work nbrs = Sum.inr work2 →
      (work.map (·.atV)).Nodup →
      tgt ∉ nbrs ∧
        (∀ v ∈ nbrs, v ∈ work2.map (·.atV)) ∧
        (work2.map (·.atV)).Nodup ∧
        ∃ tail, work2 = work ++ tail ∧
          ∀ w ∈ tail, w.atV ∈ nbrs ∧ w.route = route ++ [w.atV] ∧
            w.atV ∉ work.map (·.atV) := by
  intro nbrs
  induction nbrs with
  | nil =>
      intro work work2 h hnd
      simp [scanNbrs] at h
      subst h
      exact ⟨List.not_mem_nil _, by simp, hnd, [], by simp, by simp⟩
  | cons place rest ih =>
      intro work work2 h hnd
      by_cases hpt : place = tgt
      · subst hpt; simp [scanNbrs] at h
      · rw [scanNbrs, if_neg hpt] at h
        by_cases hmem : work.any (fun w => w.atV = place)
        · rw [if_pos hmem] at h
          rcases ih h hnd with ⟨h1, h2, hnd2, tail, htail, hdesc⟩
          have hplace : place ∈ work.map (·.atV) := by
            rw [List.any_eq_true] at hmem
            rcases hmem with ⟨w, hw, hwp⟩
            exact List.mem_map.mpr ⟨w, hw, by simpa using hwp⟩
          refine ⟨?_, ?_, hnd2, tail, htail, fun w hw => ?_⟩
          · intro hc
            rcases List.mem_cons.mp hc with hc | hc
            · exact hpt hc.symm
            · exact h1 hc
          · intro v hv
            rcases List.mem_cons.mp hv with rfl | hv
            · rw [htail, List.map_append]
              exact List.mem_append.mpr (Or.inl hplace)
            · exact h2 v hv
          · rcases hdesc w hw with ⟨hd1, hd2, hd3⟩
            exact ⟨List.mem_cons_of_mem _ hd1, hd2, hd3⟩
        · rw [if_neg hmem] at h
          have hnotin : place ∉ work.map (·.atV) := by
            intro hin
            rcases List.mem_map.mp hin with ⟨w, hw, hwx⟩
            apply hmem
            rw [List.any_eq_true]
            exact ⟨w, hw, by simp [hwx]⟩
          have hnew : ((work ++ [(⟨place, route ++ [place]⟩ : WorkItem)]).map (·.atV)).Nodup := by
            rw [List.map_append, List.nodup_append]
            refine ⟨hnd, by simp, ?_⟩
            intro x hx hx2
            simp only [List.map_cons, List.map_nil, List.mem_singleton] at hx2
            subst hx2
            exact hnotin hx
          rcases ih h hnew with ⟨h1, h2, hnd2, tail, htail, hdesc⟩
          have htail2 : work2 = work ++ (⟨place, route ++ [place]⟩ :: tail) := by
            rw [htail, List.append_assoc]
            rfl
          refine ⟨?_, ?_, hnd2, ⟨place, route ++ [place]⟩ :: tail, htail2,
            fun w hw => ?_⟩
          · intro hc
            rcases List.mem_cons.mp hc with hc | hc
            · exact hpt hc.symm
            · exact h1 hc
          · intro v hv
            rcases List.mem_cons.mp hv with rfl | hv
            · rw [htail, List.map_append, List.map_append]
              refine List.mem_append.mpr (Or.inl (List.mem_append.mpr (Or.inr ?_)))
              simp
            · exact h2 v hv
          · rcases List.mem_cons.mp hw with rfl | hw
            · exact ⟨List.mem_cons_self _ _, rfl, hnotin⟩
            · rcases hdesc w hw with ⟨hd1, hd2, hd3⟩
              refine ⟨List.mem_cons_of_mem _ hd1, hd2, fun hc => hd3 ?_⟩
              rw [List.map_append]
              exact List.mem_append.mpr (Or.inl hc)

theorem nodup_subset_dedup_length {l m : List String} (hn : l.Nodup)
    (hs : ∀ x ∈ l, x ∈ m) : l.length ≤ m.dedup.length := by
  calc l.length = l.toFinset.card := (List.toFinset_card_of_nodup hn).symm
    _ ≤ m.toFinset.card := by
        apply Finset.card_le_card
        intro x hx
        rw [List.mem_toFinset] at hx ⊢
        exact hs x hx
    _ = m.dedup.length := List.card_toFinset m

/-- Main loop invariant of `findRoute`: with a work list of pairwise distinct
vertices of the graph whose routes are genuine walks, and a target unreachable
from `f`, the outer loop runs off the end of the work list within the fuel
budget and reports the absent result (JS `undefined`). -/
theorem frAux_noRoute (g : Graph) (tgt f : String)
    (hclosed : ∀ p ∈ g, ∀ b ∈ p.2, b ∈ keysG g)
    (hunreach : ¬ ReachableG g f tgt) :
    ∀ (fuel : Nat) (work : List WorkItem) (i : Nat),
      (work.map (·.atV)).Nodup →
      (∀ w ∈ work, w.atV ∈ keysG g) →
      (∀ w ∈ work, Walk g f w.route ∧ walkEnd f w.route = w.atV) →
      i ≤ (keysG g).dedup.length →
      (keysG g).dedup.length + 1 - i ≤ fuel →
      frAux g tgt fuel work i = FRes.noRoute := by
  intro fuel
  induction fuel with
  | zero =>
      intro work i _ _ _ hi hfuel
      omega
  | succ fuel ih =>
      intro work i hnd hkeys hwalks hi hfuel
      cases hget : work.get? i with
      | none => simp only [frAux, hget]
      | some w =>
          have hwmem : w ∈ work := List.get?_mem hget
          have hilt : i < work.length := by
            by_contra hge
            rw [List.get?_eq_none.mpr (Nat.le_of_not_lt hge)] at hget
            exact Option.noConfusion hget
          obtain ⟨nbrs, hnbrs⟩ := lookupG_of_mem_keys (hkeys w hwmem)
          cases hscan : scanNbrs tgt w.route work nbrs with
          | inl r =>
              exfalso
              rcases scanNbrs_inl hscan with ⟨hr, htin⟩
              rcases hwalks w hwmem with ⟨hwalk, hend⟩
              apply hunreach
              refine ⟨w.route ++ [tgt], ?_, walkEnd_concat f tgt w.route⟩
              rw [walk_concat_iff]
              refine ⟨hwalk, ?_⟩
              rw [hend]
              unfold adjacentG
              rw [lookupD_eq_of_lookupG hnbrs]
              exact htin
          | inr work2 =>
              rcases scanNbrs_inr hscan hnd with ⟨hnotgt, hnbrsall, hnd2, tail, htail, htdesc⟩
              have hdesc : ∀ v ∈ work2, v ∈ work ∨
                  (v.atV ∈ nbrs ∧ v.route = w.route ++ [v.atV]) := by
                intro v hv
                rw [htail] at hv
                rcases List.mem_append.mp hv with hv2 | hv2
                · exact Or.inl hv2
                · rcases htdesc v hv2 with ⟨hd1, hd2, _⟩
                  exact Or.inr ⟨hd1, hd2⟩
              have hkeys2 : ∀ v ∈ work2, v.atV ∈ keysG g := by
                intro v hv
                rcases hdesc v hv with hv2 | ⟨h1, _⟩
                · exact hkeys v hv2
                · exact hclosed (w.atV, nbrs) (lookupG_mem hnbrs) v.atV h1
              have hwalks2 : ∀ v ∈ work2, Walk g f v.route ∧ walkEnd f v.route = v.atV := by
                intro v hv
                rcases hdesc v hv with hv2 | ⟨h1, h2⟩
                · exact hwalks v hv2
                · rcases hwalks w hwmem with ⟨hwalk, hend⟩
                  constructor
                  · rw [h2, walk_concat_iff]
                    refine ⟨hwalk, ?_⟩
                    rw [hend]
                    unfold adjacentG
                    rw [lookupD_eq_of_lookupG hnbrs]
                    exact h1
                  · rw [h2, walkEnd_concat]
              have hlen2 : work2.length ≤ (keysG g).dedup.length := by
                have := nodup_subset_dedup_length hnd2 (by
                  intro x hx
                  rcases List.mem_map.mp hx with ⟨v, hv, hvx⟩
                  rw [← hvx]
                  exact hkeys2 v hv)
                simpa using this
              have hlen : work.length ≤ work2.length := by
                rw [htail]
                simp
              rw [frAux]
              simp only [hget, hnbrs, hscan]
              exact ih work2 (i + 1) hnd2 hkeys2 hwalks2 (by omega) (by omega)

/-- C6: on a closed graph (every recorded neighbor is itself a vertex — in
particular any disconnected graph built by `buildGraph`), with an unreachable
target, `findRoute` terminates within the proved loop bound (it does not run
out of fuel, i.e. does not loop forever, and does not crash on a missing
vertex) and reports the JS `undefined` no-route result. -/
theorem findRoute_unreachable_noRoute (g : Graph) (f tgt : String)
    (hclosed : ∀ p ∈ g, ∀ b ∈ p.2, b ∈ keysG g)
    (hf : f ∈ keysG g) (hunreach : ¬ ReachableG g f tgt) :
    findRoute g f tgt = FRes.noRoute := by
  unfold findRoute
  apply frAux_noRoute g tgt f hclosed hunreach
  · simp
  · intro w hw
    simp only [List.mem_singleton] at hw
    subst hw
    exact hf
  · intro w hw
    simp only [List.mem_singleton] at hw
    subst hw
    exact ⟨trivial, rfl⟩
  · exact Nat.zero_le _
  · have h1 : (keysG g).dedup.length ≤ (keysG g).length :=
      (List.dedup_sublist (keysG g)).length_le
    have h2 : (keysG g).length = g.length := List.length_map _ _
    omega

theorem findRoute_unreachable_noRoute_witness :
    (∀ p ∈ buildGraph ["A-B", "C-D"], ∀ b ∈ p.2, b ∈ keysG (buildGraph ["A-B", "C-D"])) ∧
      "A" ∈ keysG (buildGraph ["A-B", "C-D"]) ∧
      findRoute (buildGraph ["A-B", "C-D"]) "A" "C" = FRes.noRoute :=
  ⟨by decide, by decide,
    findRoute_unreachable_noRoute (buildGraph ["A-B", "C-D"]) "A" "C" (by decide)
      (by decide)
      (not_reachable_of_ball (buildGraph ["A-B", "C-D"]) "A" "C" 2 (by decide)
        (by decide))⟩

/-- C4 counterexample: on the graph of the single road `A-B`, `findRoute`
from `"A"` to itself returns the non-empty cycle `["B", "A"]`, not the empty
sequence the claim asserts. -/
theorem findRoute_self_counterexample :
    findRoute (buildGraph ["A-B"]) "A" "A" = FRes.found ["B", "A"] ∧
      FRes.found ["B", "A"] ≠ FRes.found ([] : List String) := by
  constructor
  · decide
  · decide


/-- BFS completeness at a loop state: given the queue invariants — initial item
`(f, [])`, route lengths nondecreasing along the work list, neighbors of every
processed item enqueued and distinct from the target, every enqueued route of
minimal length — every walk from `f` of length below the processing bound ends
at an enqueued vertex other than the target. -/
theorem bfs_reach_mem (g : Graph) (f tgt : String) (work : List WorkItem)
    (i : Nat) (bnd : Nat)
    (hne : f ≠ tgt)
    (h0 : work.get? 0 = some ⟨f, []⟩)
    (hclosure : ∀ j, j < i → ∀ w, work.get? j = some w →
      ∀ v ∈ lookupD g w.atV, v ≠ tgt ∧ v ∈ work.map (·.atV))
    (hmin : ∀ w ∈ work, ∀ r2, Walk g f r2 → walkEnd f r2 = w.atV →
      w.route.length ≤ r2.length)
    (hproc : ∀ j w2, work.get? j = some w2 → w2.route.length < bnd → j < i) :
    ∀ m, m ≤ bnd → ∀ r2 : List String, Walk g f r2 → r2.length = m →
      walkEnd f r2 ≠ tgt ∧ walkEnd f r2 ∈ work.map (·.atV) := by
  intro m
  induction m with
  | zero =>
      intro _ r2 hw hlen
      have h : r2 = [] := List.length_eq_zero.mp hlen
      subst h
      rw [walkEnd_nil]
      exact ⟨hne, List.mem_map.mpr ⟨⟨f, []⟩, List.get?_mem h0, rfl⟩⟩
  | succ m ih =>
      intro hmb r2 hw hlen
      rcases List.eq_nil_or_concat r2 with rfl | ⟨r3, v, hr⟩
      · simp at hlen
      · rw [List.concat_eq_append] at hr
        subst hr
        rcases (walk_concat_iff g f v r3).mp hw with ⟨hw3, hadj⟩
        have hlen3 : r3.length = m := by simpa using hlen
        obtain ⟨hpne, hpmem⟩ := ih (Nat.le_of_succ_le hmb) r3 hw3 hlen3
        rcases List.mem_map.mp hpmem with ⟨wp, hwpmem, hwpat⟩
        rcases List.mem_iff_get.mp hwpmem with ⟨⟨j, hj⟩, hwpj⟩
        have hgetj : work.get? j = some wp := by rw [List.get?_eq_get hj, hwpj]
        have hwplen : wp.route.length ≤ m := by
          have := hmin wp hwpmem r3 hw3 (by rw [hwpat])
          omega
        have hji : j < i := hproc j wp hgetj (by omega)
        have hres := hclosure j hji wp hgetj v (by rw [hwpat]; exact hadj)
        rw [walkEnd_concat]
        exact hres

/-- Main BFS correctness run: from any loop state satisfying the queue
invariants, with the target reachable and distinct from the source, the loop
returns a found route omitting `f`, ending in `tgt`, of minimal hop count. -/
theorem frAux_found_shortest (g : Graph) (tgt f : String)
    (hclosed : ∀ p ∈ g, ∀ b ∈ p.2, b ∈ keysG g)
    (hne : f ≠ tgt)
    (hreach : ReachableG g f tgt) :
    ∀ (fuel : Nat) (work : List WorkItem) (i : Nat),
      (work.map (·.atV)).Nodup →
      (∀ w ∈ work, w.atV ∈ keysG g) →
      (∀ w ∈ work, Walk g f w.route ∧ walkEnd f w.route = w.atV) →
      (∀ w ∈ work, f ∉ w.route) →
      work.get? 0 = some ⟨f, []⟩ →
      List.Pairwise (fun w1 w2 => w1.route.length ≤ w2.route.length) work →
      (∀ wi, work.get? i = some wi → ∀ w ∈ work, w.route.length ≤ wi.route.length + 1) →
      (∀ j, j < i → ∀ w, work.get? j = some w →
        ∀ v ∈ lookupD g w.atV, v ≠ tgt ∧ v ∈ work.map (·.atV)) →
      (∀ w ∈ work, ∀ r2, Walk g f r2 → walkEnd f r2 = w.atV →
        w.route.length ≤ r2.length) →
      i ≤ (keysG g).dedup.length →
      (keysG g).dedup.length + 1 - i ≤ fuel →
      ∃ r, frAux g tgt fuel work i = FRes.found r ∧ f ∉ r ∧
        r.getLast? = some tgt ∧ IsShortestHops g f tgt r.length := by
  intro fuel
  induction fuel with
  | zero =>
      intro work i _ _ _ _ _ _ _ _ _ hi hfuel
      omega
  | succ fuel ih =>
      intro work i hnd hkeys hwalks hfnr h0 hsorted hbound hclosure hmin hi hfuel
      cases hget : work.get? i with
      | none =>
          exfalso
          have hilen : work.length ≤ i := by
            by_contra hlt
            rw [List.get?_eq_get (Nat.lt_of_not_le hlt)] at hget
            exact Option.noConfusion hget
          rcases hreach with ⟨r2, hw2, he2⟩
          have hproc : ∀ j w2, work.get? j = some w2 →
              w2.route.length < r2.length + 1 → j < i := by
            intro j w2 hj _
            have hjl : j < work.length := by
              by_contra hge
              rw [List.get?_eq_none.mpr (Nat.le_of_not_lt hge)] at hj
              exact Option.noConfusion hj
            omega
          have hml := bfs_reach_mem g f tgt work i (r2.length + 1) hne h0 hclosure
            hmin hproc r2.length (by omega) r2 hw2 rfl
          exact hml.1 he2
      | some wi =>
          have hwmem : wi ∈ work := List.get?_mem hget
          have hilt : i < work.length := by
            by_contra hge
            rw [List.get?_eq_none.mpr (Nat.le_of_not_lt hge)] at hget
            exact Option.noConfusion hget
          obtain ⟨nbrs, hnbrs⟩ := lookupG_of_mem_keys (hkeys wi hwmem)
          have hnbrsD : lookupD g wi.atV = nbrs := lookupD_eq_of_lookupG hnbrs
          have hproc : ∀ j w2, work.get? j = some w2 →
              w2.route.length < wi.route.length → j < i := by
            intro j w2 hj hlt2
            have hjl : j < work.length := by
              by_contra hge
              rw [List.get?_eq_none.mpr (Nat.le_of_not_lt hge)] at hj
              exact Option.noConfusion hj
            by_contra hge
            push_neg at hge
            rcases Nat.eq_or_lt_of_le hge with heq | hlt3
            · subst heq
              rw [hget] at hj
              injection hj with hj
              subst hj
              omega
            · have hle := List.pairwise_iff_get.mp hsorted ⟨i, hilt⟩ ⟨j, hjl⟩ hlt3
              have hgi : work.get ⟨i, hilt⟩ = wi := by
                have := List.get?_eq_get hilt
                rw [hget] at this
                exact (Option.some_injective _ this.symm)
              have hgj : work.get ⟨j, hjl⟩ = w2 := by
                have := List.get?_eq_get hjl
                rw [hj] at this
                exact (Option.some_injective _ this.symm)
              rw [hgi, hgj] at hle
              omega
          cases hscan : scanNbrs tgt wi.route work nbrs with
          | inl r =>
              rcases scanNbrs_inl hscan with ⟨hr, htin⟩
              subst hr
              rcases hwalks wi hwmem with ⟨hwalk, hend⟩
              have hadjt : adjacentG g (walkEnd f wi.route) tgt := by
                rw [hend]
                unfold adjacentG
                rw [hnbrsD]
                exact htin
              have hwt : Walk g f (wi.route ++ [tgt]) :=
                (walk_concat_iff g f tgt wi.route).mpr ⟨hwalk, hadjt⟩
              refine ⟨wi.route ++ [tgt], ?_, ?_, List.getLast?_concat _, ⟨?_, ?_⟩⟩
              · rw [frAux]
                simp only [hget, hnbrs, hscan]
              · intro hc
                rcases List.mem_append.mp hc with hc | hc
                · exact hfnr wi hwmem hc
                · rw [List.mem_singleton] at hc
                  exact hne hc
              · exact ⟨wi.route ++ [tgt], hwt, walkEnd_concat f tgt wi.route, rfl⟩
              · intro r2 hw2 he2
                by_contra hlt
                push_neg at hlt
                rw [List.length_append, List.length_singleton] at hlt
                have hml := bfs_reach_mem g f tgt work i wi.route.length hne h0
                  hclosure hmin hproc r2.length (by omega) r2 hw2 rfl
                exact hml.1 he2
          | inr work2 =>
              rcases scanNbrs_inr hscan hnd with
                ⟨hnotgt, hnbrsall, hnd2, tail, htail, htdesc⟩
              have hget2 : ∀ j, j < work.length → work2.get? j = work.get? j := by
                intro j hj
                rw [htail, List.get?_append hj]
              have hdesc : ∀ v ∈ work2, v ∈ work ∨ v ∈ tail := by
                intro v hv
                rw [htail] at hv
                exact List.mem_append.mp hv
              have htlen : ∀ w ∈ tail, w.route.length = wi.route.length + 1 := by
                intro w hw
                rcases htdesc w hw with ⟨_, hd2, _⟩
                rw [hd2]
                simp
              have hkeys2 : ∀ v ∈ work2, v.atV ∈ keysG g := by
                intro v hv
                rcases hdesc v hv with hv2 | hv2
                · exact hkeys v hv2
                · rcases htdesc v hv2 with ⟨hd1, _, _⟩
                  exact hclosed (wi.atV, nbrs) (lookupG_mem hnbrs) v.atV hd1
              have hwalks2 : ∀ v ∈ work2, Walk g f v.route ∧ walkEnd f v.route = v.atV := by
                intro v hv
                rcases hdesc v hv with hv2 | hv2
                · exact hwalks v hv2
                · rcases htdesc v hv2 with ⟨hd1, hd2, _⟩
                  rcases hwalks wi hwmem with ⟨hwalk, hend⟩
                  constructor
                  · rw [hd2, walk_concat_iff]
                    refine ⟨hwalk, ?_⟩
                    rw [hend]
                    unfold adjacentG
                    rw [hnbrsD]
                    exact hd1
                  · rw [hd2, walkEnd_concat]
              have hfmem : f ∈ work.map (·.atV) :=
                List.mem_map.mpr ⟨⟨f, []⟩, List.get?_mem h0, rfl⟩
              have hfnr2 : ∀ w ∈ work2, f ∉ w.route := by
                intro w hw
                rcases hdesc w hw with hw2 | hw2
                · exact hfnr w hw2
                · rcases htdesc w hw2 with ⟨_, hd2, hd3⟩
                  rw [hd2]
                  intro hc
                  rcases List.mem_append.mp hc with hc | hc
                  · exact hfnr wi hwmem hc
                  · rw [List.mem_singleton] at hc
                    exact hd3 (hc ▸ hfmem)
              have h02 : work2.get? 0 = some ⟨f, []⟩ := by
                rw [hget2 0 (Nat.lt_of_le_of_lt (Nat.zero_le i) hilt)]
                exact h0
              have hsorted2 :
                  List.Pairwise (fun w1 w2 => w1.route.length ≤ w2.route.length) work2 := by
                rw [htail, List.pairwise_append]
                refine ⟨hsorted, ?_, ?_⟩
                · apply List.pairwise_of_forall_mem_list
                  intro a ha b hb
                  rw [htlen a ha, htlen b hb]
                · intro a ha b hb
                  rw [htlen b hb]
                  exact hbound wi hget a ha
              have hi2lt : i < work2.length := by
                rw [htail, List.length_append]
                omega
              have hbound2 : ∀ wi2, work2.get? (i + 1) = some wi2 →
                  ∀ w ∈ work2, w.route.length ≤ wi2.route.length + 1 := by
                intro wi2 hgeti2 w hw
                have hii2 : i + 1 < work2.length := by
                  by_contra hge
                  rw [List.get?_eq_none.mpr (Nat.le_of_not_lt hge)] at hgeti2
                  exact Option.noConfusion hgeti2
                have hgi : work2.get ⟨i, hi2lt⟩ = wi := by
                  have h1 := List.get?_eq_get hi2lt
                  rw [hget2 i hilt, hget] at h1
                  exact (Option.some_injective _ h1.symm)
                have hgi2 : work2.get ⟨i + 1, hii2⟩ = wi2 := by
                  have h1 := List.get?_eq_get hii2
                  rw [hgeti2] at h1
                  exact (Option.some_injective _ h1.symm)
                have hle := List.pairwise_iff_get.mp hsorted2 ⟨i, hi2lt⟩ ⟨i + 1, hii2⟩
                  (by exact Nat.lt_succ_self i)
                rw [hgi, hgi2] at hle
                rcases hdesc w hw with hw2 | hw2
                · have := hbound wi hget w hw2
                  omega
                · have := htlen w hw2
                  omega
              have hclosure2 : ∀ j, j < i + 1 → ∀ w, work2.get? j = some w →
                  ∀ v ∈ lookupD g w.atV, v ≠ tgt ∧ v ∈ work2.map (·.atV) := by
                intro j hj w hjw v hv
                rcases Nat.lt_or_ge j i with hji | hji
                · have hjl : j < work.length := Nat.lt_trans hji hilt
                  rw [hget2 j hjl] at hjw
                  rcases hclosure j hji w hjw v hv with ⟨h1, h2⟩
                  refine ⟨h1, ?_⟩
                  rw [htail, List.map_append]
                  exact List.mem_append.mpr (Or.inl h2)
                · have hj' : j = i := by omega
                  subst hj'
                  rw [hget2 j hilt, hget] at hjw
                  injection hjw with hjw
                  subst hjw
                  rw [hnbrsD] at hv
                  exact ⟨fun hc => hnotgt (hc ▸ hv), hnbrsall v hv⟩
              have hmin2 : ∀ w ∈ work2, ∀ r2, Walk g f r2 → walkEnd f r2 = w.atV →
                  w.route.length ≤ r2.length := by
                intro w hw r2 hw2 he2
                rcases hdesc w hw with hwo | hwt
                · exact hmin w hwo r2 hw2 he2
                · rcases htdesc w hwt with ⟨_, _, hd3⟩
                  have hlenw : w.route.length = wi.route.length + 1 := htlen w hwt
                  by_contra hlt
                  push_neg at hlt
                  have hml := bfs_reach_mem g f tgt work i wi.route.length hne h0
                    hclosure hmin hproc r2.length (by omega) r2 hw2 rfl
                  exact hd3 (he2 ▸ hml.2)
              have hlen2 : work2.length ≤ (keysG g).dedup.length := by
                have hsub := nodup_subset_dedup_length hnd2 (by
                  intro x hx
                  rcases List.mem_map.mp hx with ⟨v, hv, hvx⟩
                  rw [← hvx]
                  exact hkeys2 v hv)
                simpa using hsub
              rw [frAux]
              simp only [hget, hnbrs, hscan]
              exact ih work2 (i + 1) hnd2 hkeys2 hwalks2 hfnr2 h02 hsorted2 hbound2
                hclosure2 hmin2 (by omega) (by omega)

-- Closedness of graphs built by `buildGraph`.

theorem mem_keys_addEdge_of_mem {g : Graph} {x f t : String} (h : x ∈ keysG g) :
    x ∈ keysG (addEdge g f t) := by
  induction g with
  | nil => simp [keysG] at h
  | cons kv rest ih =>
      obtain ⟨k, vs⟩ := kv
      by_cases hk : k = f
      · simpa [addEdge, hk, keysG] using (by simpa [keysG, hk] using h)
      · simp only [keysG, List.map_cons] at h
        rcases List.mem_cons.mp h with rfl | h
        · simp [addEdge, hk, keysG]
        · simp only [addEdge, hk, if_false, keysG, List.map_cons, List.mem_cons]
          exact Or.inr (ih h)

theorem mem_keys_addEdge_self (g : Graph) (f t : String) :
    f ∈ keysG (addEdge g f t) := by
  induction g with
  | nil => simp [addEdge, keysG]
  | cons kv rest ih =>
      obtain ⟨k, vs⟩ := kv
      by_cases hk : k = f
      · simp [addEdge, hk, keysG]
      · simp only [addEdge, hk, if_false, keysG, List.map_cons, List.mem_cons]
        exact Or.inr ih

theorem addEdge_value_origin {g : Graph} {f t : String} :
    ∀ p ∈ addEdge g f t, ∀ b ∈ p.2, (∃ q ∈ g, b ∈ q.2) ∨ b = t := by
  induction g with
  | nil =>
      intro p hp b hb
      simp only [addEdge, List.mem_singleton] at hp
      subst hp
      simp only [List.mem_singleton] at hb
      exact Or.inr hb
  | cons kv rest ih =>
      obtain ⟨k, vs⟩ := kv
      intro p hp b hb
      by_cases hk : k = f
      · rw [addEdge, if_pos hk] at hp
        rcases List.mem_cons.mp hp with rfl | hp
        · simp only [List.mem_append, List.mem_singleton] at hb
          rcases hb with hb | hb
          · exact Or.inl ⟨(k, vs), List.mem_cons_self _ _, hb⟩
          · exact Or.inr hb
        · exact Or.inl ⟨p, List.mem_cons_of_mem _ hp, hb⟩
      · rw [addEdge, if_neg hk] at hp
        rcases List.mem_cons.mp hp with rfl | hp
        · exact Or.inl ⟨(k, vs), List.mem_cons_self _ _, hb⟩
        · rcases ih p hp b hb with ⟨q, hq, hbq⟩ | hbt
          · exact Or.inl ⟨q, List.mem_cons_of_mem _ hq, hbq⟩
          · exact Or.inr hbt

theorem closed_addEdge_pair {g : Graph} (a b : String)
    (hg : ∀ p ∈ g, ∀ c ∈ p.2, c ∈ keysG g) :
    ∀ p ∈ addEdge (addEdge g a b) b a, ∀ c ∈ p.2,
      c ∈ keysG (addEdge (addEdge g a b) b a) := by
  intro p hp c hc
  rcases addEdge_value_origin p hp c hc with ⟨q, hq, hcq⟩ | heq
  · rcases addEdge_value_origin q hq c hcq with ⟨q2, hq2, hcq2⟩ | heq2
    · exact mem_keys_addEdge_of_mem (mem_keys_addEdge_of_mem (hg q2 hq2 c hcq2))
    · rw [heq2]
      exact mem_keys_addEdge_self (addEdge g a b) b a
  · rw [heq]
    exact mem_keys_addEdge_of_mem (mem_keys_addEdge_self g a b)

theorem closed_foldPairs (pairs : List (String × String)) (g : Graph)
    (hg : ∀ p ∈ g, ∀ b ∈ p.2, b ∈ keysG g) :
    ∀ p ∈ pairs.foldl (fun g2 ft => addEdge (addEdge g2 ft.1 ft.2) ft.2 ft.1) g,
      ∀ b ∈ p.2,
        b ∈ keysG (pairs.foldl (fun g2 ft => addEdge (addEdge g2 ft.1 ft.2) ft.2 ft.1) g) := by
  induction pairs generalizing g with
  | nil => exact hg
  | cons q rest ih =>
      exact ih (addEdge (addEdge g q.1 q.2) q.2 q.1) (closed_addEdge_pair q.1 q.2 hg)

/-- Every graph produced by `buildGraph` is closed: each recorded neighbor is
itself a vertex of the graph. -/
theorem buildGraph_closed (edges : List String) :
    ∀ p ∈ buildGraph edges, ∀ b ∈ p.2, b ∈ keysG (buildGraph edges) := by
  unfold buildGraph
  exact closed_foldPairs (edges.map parseEdge) []
    (fun p hp => absurd hp (List.not_mem_nil p))

/-- BFS correctness of `findRoute` on any closed graph: for a reachable target
distinct from the source, the returned route omits the source, ends at the
target, and realizes the minimal hop count. -/
theorem findRoute_found_shortest (g : Graph) (f tgt : String)
    (hclosed : ∀ p ∈ g, ∀ b ∈ p.2, b ∈ keysG g)
    (hf : f ∈ keysG g) (hne : f ≠ tgt) (hreach : ReachableG g f tgt) :
    ∃ r, findRoute g f tgt = FRes.found r ∧ f ∉ r ∧ r.getLast? = some tgt ∧
      IsShortestHops g f tgt r.length := by
  unfold findRoute
  apply frAux_found_shortest g tgt f hclosed hne hreach (g.length + 2) [⟨f, []⟩] 0
  · simp
  · intro w hw
    rw [List.mem_singleton] at hw
    subst hw
    exact hf
  · intro w hw
    rw [List.mem_singleton] at hw
    subst hw
    exact ⟨trivial, rfl⟩
  · intro w hw
    rw [List.mem_singleton] at hw
    subst hw
    exact List.not_mem_nil f
  · rfl
  · simp
  · intro wi _ w hw
    rw [List.mem_singleton] at hw
    subst hw
    simp
  · intro j hj
    exact absurd hj (Nat.not_lt_zero j)
  · intro w hw r2 _ _
    rw [List.mem_singleton] at hw
    subst hw
    simp
  · exact Nat.zero_le _
  · have h1 : (keysG g).dedup.length ≤ (keysG g).length :=
      (List.dedup_sublist (keysG g)).length_le
    have h2 : (keysG g).length = g.length := List.length_map _ _
    omega

/-- C3: for every graph built by `buildGraph` and every pair of distinct
vertices `(f, t)` with `t` reachable from `f`, `findRoute` returns a route
sequence that does not include `f`, includes `t` as its last element, and
whose length is the true unweighted shortest-path hop count. -/
theorem findRoute_shortest (edges : List String) (f t : String)
    (hf : f ∈ keysG (buildGraph edges)) (ht : t ∈ keysG (buildGraph edges))
    (hne : f ≠ t) (hreach : ReachableG (buildGraph edges) f t) :
    ∃ r, findRoute (buildGraph edges) f t = FRes.found r ∧ f ∉ r ∧
      r.getLast? = some t ∧ IsShortestHops (buildGraph edges) f t r.length :=
  findRoute_found_shortest (buildGraph edges) f t (buildGraph_closed edges) hf hne hreach

theorem findRoute_shortest_witness :
    "Cabin" ∈ keysG (buildGraph roads) ∧ "Farm" ∈ keysG (buildGraph roads) ∧
      "Cabin" ≠ "Farm" ∧
      ∃ r, findRoute (buildGraph roads) "Cabin" "Farm" = FRes.found r ∧
        "Cabin" ∉ r ∧ r.getLast? = some "Farm" ∧
        IsShortestHops (buildGraph roads) "Cabin" "Farm" r.length :=
  ⟨by decide, by decide, by decide,
    findRoute_shortest roads "Cabin" "Farm" (by decide) (by decide) (by decide)
      ⟨["Alice's House", "Post Office", "Marketplace", "Farm"], by decide, by decide⟩⟩

/-- The inner loop returns early with `route ++ [tgt]` as soon as the target
occurs among the scanned neighbors. -/
theorem scanNbrs_inl_of_mem {tgt : String} {route : List String} :
    ∀ {nbrs : List String} {work : List WorkItem}, tgt ∈ nbrs →
      scanNbrs tgt route work nbrs = Sum.inl (route ++ [tgt]) := by
  intro nbrs
  induction nbrs with
  | nil =>
      intro work h
      simp at h
  | cons place rest ih =>
      intro work h
      by_cases hpt : place = tgt
      · subst hpt
        rw [scanNbrs, if_pos rfl]
      · rcases List.mem_cons.mp h with heq | h2
        · exact absurd heq.symm hpt
        · rw [scanNbrs, if_neg hpt]
          by_cases hmem : work.any (fun w => w.atV = place)
          · rw [if_pos hmem]
            exact ih h2
          · rw [if_neg hmem]
            exact ih h2

/-- Without the target among the neighbors the inner loop cannot return early. -/
theorem scanNbrs_not_inl {tgt : String} {route : List String}
    {nbrs : List String} {work : List WorkItem} (h : tgt ∉ nbrs) :
    ∃ work2, scanNbrs tgt route work nbrs = Sum.inr work2 := by
  cases hres : scanNbrs tgt route work nbrs with
  | inl r => exact absurd (scanNbrs_inl hres).2 h
  | inr w2 => exact ⟨w2, rfl⟩

/-- C4 amended: on a graph built by `buildGraph` from well-formed edge
strings, for a vertex `v` without self-loop whose adjacency list starts with
`n`, `findRoute(graph, v, v)` returns not the empty sequence but the non-empty
two-step cycle `[n, v]`: out along the first neighbor and (by the symmetry of
`buildGraph` graphs) straight back. -/
theorem findRoute_self_cycle (edges : List String) (v n : String)
    (rest : List String)
    (hwf : ∀ r ∈ edges, (splitDash r).length = 2)
    (hlook : lookupG (buildGraph edges) v = some (n :: rest))
    (hnoself : v ∉ n :: rest) :
    findRoute (buildGraph edges) v v = FRes.found [n, v] ∧
      [n, v] ≠ ([] : List String) := by
  refine ⟨?_, by simp⟩
  have hvn : v ≠ n := fun h => hnoself (h ▸ List.mem_cons_self n rest)
  have hvrest : v ∉ rest := fun h => hnoself (List.mem_cons_of_mem n h)
  have hcount : List.count n (lookupD (buildGraph edges) v) =
      List.count v (lookupD (buildGraph edges) n) :=
    buildGraph_symmetric_multiplicity edges hwf v n
  have hnmem : n ∈ lookupD (buildGraph edges) v := by
    rw [lookupD_eq_of_lookupG hlook]
    exact List.mem_cons_self n rest
  have hvmem : v ∈ lookupD (buildGraph edges) n := by
    have h1 : 0 < List.count n (lookupD (buildGraph edges) v) :=
      List.count_pos_iff_mem.mpr hnmem
    rw [hcount] at h1
    exact List.count_pos_iff_mem.mp h1
  obtain ⟨l1, hlookn⟩ : ∃ l1, lookupG (buildGraph edges) n = some l1 := by
    cases hl : lookupG (buildGraph edges) n with
    | none => rw [lookupD, hl] at hvmem; simp at hvmem
    | some l1 => exact ⟨l1, rfl⟩
  have hvl1 : v ∈ l1 := by
    rw [lookupD_eq_of_lookupG hlookn] at hvmem
    exact hvmem
  have hnv : ¬ (n = v) := fun h => hvn h.symm
  have hany : (([⟨v, []⟩] : List WorkItem).any (fun w => w.atV = n)) = false := by
    simp [hvn]
  have hscan0 : scanNbrs v [] [⟨v, []⟩] (n :: rest) =
      scanNbrs v [] [⟨v, []⟩, ⟨n, [n]⟩] rest := by
    rw [scanNbrs, if_neg hnv, if_neg (by rw [hany]; exact Bool.false_ne_true)]
    rfl
  obtain ⟨work2, hscan2⟩ :
      ∃ work2, scanNbrs v [] [⟨v, []⟩, ⟨n, [n]⟩] rest = Sum.inr work2 :=
    scanNbrs_not_inl hvrest
  have hnd : (([⟨v, []⟩, ⟨n, [n]⟩] : List WorkItem).map (·.atV)).Nodup := by
    simp [hvn]
  rcases scanNbrs_inr hscan2 hnd with ⟨_, _, _, tail, htail, _⟩
  have hget1 : work2.get? 1 = some ⟨n, [n]⟩ := by
    rw [htail, List.get?_append (by simp)]
    rfl
  have hscanl : scanNbrs v [n] work2 l1 = Sum.inl ([n] ++ [v]) :=
    scanNbrs_inl_of_mem hvl1
  unfold findRoute
  have h2 : (buildGraph edges).length + 2 = ((buildGraph edges).length + 1) + 1 := rfl
  rw [h2, frAux]
  simp only [List.get?_cons_zero, hlook, hscan0, hscan2]
  rw [frAux]
  simp only [hget1, hlookn, hscanl]
  rfl

theorem findRoute_self_cycle_witness :
    (∀ r ∈ roads, (splitDash r).length = 2) ∧
      lookupG (buildGraph roads) "Alice's House" =
        some ["Bob's House", "Cabin", "Post Office"] ∧
      "Alice's House" ∉ ["Bob's House", "Cabin", "Post Office"] ∧
      (findRoute (buildGraph roads) "Alice's House" "Alice's House" =
          FRes.found ["Bob's House", "Alice's House"] ∧
        ["Bob's House", "Alice's House"] ≠ ([] : List String)) :=
  ⟨by decide, by decide, by decide,
    findRoute_self_cycle roads "Alice's House" "Bob's House" ["Cabin", "Post Office"]
      (by decide) (by decide) (by decide)⟩
